import Mathlib

/-
Verification of the DriveBuddy Raycast extension search engine
(src/src/drivebuddy.ts) against its natural-language specification.

JavaScript strings are modelled as lists of characters (`Str`); machine
numbers that stay small non-negative integers are modelled as `Nat`;
the match score, a fraction of 100, is modelled as `Rat`.
-/

namespace DriveBuddy

/-- JS strings are modelled as lists of characters. -/
abbrev Str := List Char

/-- ASCII model of the per-character mapping applied by
`String.prototype.toLowerCase` (used in `query.toLowerCase()`):
uppercase ASCII letters move down by 32, all other characters are kept. -/
def lowerChar (c : Char) : Char :=
  if 65 ≤ c.toNat ∧ c.toNat ≤ 90 then Char.ofNat (c.toNat + 32) else c

/-- Model of `s.toLowerCase()`. -/
def lower (s : Str) : Str := s.map lowerChar

/-- The whitespace characters removed by `String.prototype.trim`
(ASCII subset: space, tab, line feed, carriage return). -/
def isJsSpace (c : Char) : Bool :=
  c == ' ' || c == '\t' || c == '\n' || c == '\r'

/-- Model of `s.trim()`: drop whitespace from both ends. -/
def trim (s : Str) : Str :=
  ((s.dropWhile isJsSpace).reverse.dropWhile isJsSpace).reverse

/-- Modelled from the spec: the edit distance of §4.1 step 4 (minimum-cost
sequence of single-character insert, delete and substitute operations).
The fuzzy-scoring code is documented in the README but is absent from src/. -/
def lev : Str → Str → Nat
  | [], t => t.length
  | s, [] => s.length
  | a :: s, b :: t =>
    if a = b then lev s t
    else 1 + min (lev s (b :: t)) (min (lev (a :: s) t) (lev s t))
termination_by s t => s.length + t.length

/-- Modelled from the spec: the score function of §4.1 (`score(query,
candidateName)`), absent from src/.  Normalize both inputs to lowercase;
exact equality scores 100; a contiguous-substring hit scores
`90 + 10 * (len(query) / len(candidate))`; otherwise the edit distance is
converted to a similarity percentage clamped to `[0, 100]`, which is 0 when
both strings are empty. -/
def score (query cand : Str) : ℚ :=
  let q := lower query
  let n := lower cand
  if q = n then 100
  else if q <:+: n then 90 + 10 * ((q.length : ℚ) / (n.length : ℚ))
  else
    let m := max q.length n.length
    if m = 0 then 0
    else max 0 (min 100 (100 * (((m : ℚ) - (lev q n : ℚ)) / (m : ℚ))))

/-- One decoded index entry (`SearchEntry` in drivebuddy.ts). -/
structure SearchEntry where
  name : Str
  relativePath : Str
deriving DecidableEq

/-- One search hit (`SearchResult` in drivebuddy.ts). -/
structure SearchResult where
  entry : SearchEntry
  driveUUID : Str
  driveName : Str
  indexFile : Str
deriving DecidableEq

/-- The standard base64 alphabet used by `Buffer` base64 conversion. -/
def b64alphabet : List Char :=
  ['A', 'B', 'C', 'D', 'E', 'F', 'G', 'H', 'I', 'J', 'K', 'L', 'M',
   'N', 'O', 'P', 'Q', 'R', 'S', 'T', 'U', 'V', 'W', 'X', 'Y', 'Z',
   'a', 'b', 'c', 'd', 'e', 'f', 'g', 'h', 'i', 'j', 'k', 'l', 'm',
   'n', 'o', 'p', 'q', 'r', 's', 't', 'u', 'v', 'w', 'x', 'y', 'z',
   '0', '1', '2', '3', '4', '5', '6', '7', '8', '9', '+', '/']

/-- The base64 digit character for a sextet value. -/
def b64char (n : Nat) : Char := b64alphabet.getD n '='

/-- The sextet value of a base64 digit character; `none` for characters
outside the alphabet (including the `=` padding). -/
def b64val (c : Char) : Option Nat := b64alphabet.findIdx? (fun x => x == c)

/-- Base64 encoding of a byte list, as performed by
`buffer.toString("base64")`: each group of 3 bytes becomes 4 digits, a
trailing group of 1 or 2 bytes is encoded and padded with `=`. -/
def b64encode : List Nat → List Char
  | [] => []
  | [a] => [b64char (a / 4), b64char (a % 4 * 16), '=', '=']
  | [a, b] =>
    [b64char (a / 4), b64char (a % 4 * 16 + b / 16), b64char (b % 16 * 4), '=']
  | a :: b :: c :: rest =>
    b64char (a / 4) :: b64char (a % 4 * 16 + b / 16) ::
      b64char (b % 16 * 4 + c / 64) :: b64char (c % 64) :: b64encode rest

/-- Decode a list of sextet values back to bytes: every complete group of 4
sextets yields 3 bytes, a trailing group of 2 or 3 sextets yields 1 or 2
bytes, and a lone leftover sextet yields nothing. -/
def b64decodeVals : List Nat → List Nat
  | s1 :: s2 :: s3 :: s4 :: rest =>
    (s1 * 4 + s2 / 16) :: (s2 % 16 * 16 + s3 / 4) :: (s3 % 4 * 64 + s4) ::
      b64decodeVals rest
  | [s1, s2] => [s1 * 4 + s2 / 16]
  | [s1, s2, s3] => [s1 * 4 + s2 / 16, s2 % 16 * 16 + s3 / 4]
  | _ => []

/-- The lenient base64 decoding performed by `Buffer.from(str, "base64")` in
Node: characters outside the base64 alphabet (including `=` padding) are
ignored, and the remaining digits are decoded.  It never throws. -/
def b64decode (s : List Char) : List Nat :=
  b64decodeVals (s.filterMap b64val)

/-- Model of `filename.replace(".json", "")`: remove the leftmost occurrence
of the literal substring `.json`, if any. -/
def removeJsonExt : Str → Str
  | [] => []
  | c :: rest =>
    if (c :: rest).take 5 = ".json".toList then rest.drop 4
    else c :: removeJsonExt rest

/-- `decodeVolumeUUID` from drivebuddy.ts: strip the `.json` extension,
base64-decode the rest with the lenient Node decoder, and read the bytes as
ASCII (`toString("ascii")` clears the high bit of each byte).  The catch
branch of the source (returning the raw stripped filename) is unreachable
because the lenient decoder never throws. -/
def decodeVolumeUUID (filename : Str) : Str :=
  (b64decode (removeJsonExt filename)).map (fun b => Char.ofNat (b % 128))

/-- `encodeVolumeUUID` from drivebuddy.ts: read the identifier as bytes
(`Buffer.from(uuid, "ascii")` masks each code point to one byte) and
base64-encode them. -/
def encodeVolumeUUID (uuid : Str) : Str :=
  b64encode (uuid.map (fun c => c.toNat % 256))

/-- An index document as the search loop sees it: its filename in the index
directory and its on-disk size (`statSync(...).size`, used only for the
smallest-first ordering). -/
structure IndexDoc where
  file : Str
  size : Nat
deriving DecidableEq

/-- What streaming one index file yields: `.error` models a stream-open or
stream-read failure, `.ok` the decoded entries in document order (malformed
units are skipped by the scanner and never appear in the list). -/
abbrev FileSystem := Str → Except Unit (List SearchEntry)

/-- Model of `streamSearchIndexFile` at the decoded-entry level: walk the
entries the stream yields in order, stopping as soon as `maxResults` results
have accumulated; keep an entry when `name` and `relativePath` are non-empty
(JS truthiness of `entry.name && entry.relativePath`) and the name contains
the query as a contiguous substring (`entry.name.includes(query)`). -/
def streamSearchIndexFile (query : Str) (maxResults : Nat)
    (driveUUID driveName indexFile : Str) :
    List SearchEntry → List SearchResult → List SearchResult
  | [], acc => acc
  | e :: es, acc =>
    if maxResults ≤ acc.length then acc
    else if e.name ≠ [] ∧ e.relativePath ≠ [] ∧ query <:+: e.name then
      streamSearchIndexFile query maxResults driveUUID driveName indexFile es
        (acc ++ [⟨e, driveUUID, driveName, indexFile⟩])
    else
      streamSearchIndexFile query maxResults driveUUID driveName indexFile es acc

/-- Lexicographic character-code comparison of two strings, the model of the
`localeCompare` calls in the final sort. -/
def strCmp : Str → Str → Ordering
  | [], [] => .eq
  | [], _ :: _ => .lt
  | _ :: _, [] => .gt
  | a :: as, b :: bs =>
    match compare a.toNat b.toNat with
    | .eq => strCmp as bs
    | o => o

/-- The comparator of the final `results.sort` in `searchDrivesAsync`
(lines 269-282): results whose filename contains the query come first, ties
are broken by drive name, then by relative path. -/
def resultCmp (lowerQuery : Str) (a b : SearchResult) : Ordering :=
  if (lowerQuery <:+: a.entry.name) ∧ ¬ (lowerQuery <:+: b.entry.name) then .lt
  else if ¬ (lowerQuery <:+: a.entry.name) ∧ (lowerQuery <:+: b.entry.name) then .gt
  else if a.driveName ≠ b.driveName then strCmp a.driveName b.driveName
  else strCmp a.entry.relativePath b.entry.relativePath

/-- The ordering the final sort establishes: the comparator did not answer
"greater", so the left result may stay before the right one. -/
def rankLE (lowerQuery : Str) (a b : SearchResult) : Prop :=
  resultCmp lowerQuery a b ≠ Ordering.gt

instance (lowerQuery : Str) : DecidableRel (rankLE lowerQuery) :=
  fun a b => instDecidableNot

/-- The final ranking stage of `searchDrivesAsync`: stable sort of the pooled
results by the comparator, then truncation to `maxResults`
(`results.sort(...)` followed by `results.slice(0, maxResults)`). -/
def rankResults (lowerQuery : Str) (results : List SearchResult)
    (maxResults : Nat) : List SearchResult :=
  (List.insertionSort (rankLE lowerQuery) results).take maxResults

/-- The document loop of `searchDrivesAsync` (lines 241-263): documents are
visited in the given order; the loop breaks once `maxResults` results have
accumulated; a document whose stream fails contributes nothing and the loop
continues with the next document. -/
def searchLoop (driveInfo : Str → Option Str) (fs : FileSystem)
    (lowerQuery : Str) (maxResults : Nat) :
    List IndexDoc → List SearchResult → List SearchResult
  | [], acc => acc
  | f :: rest, acc =>
    if maxResults ≤ acc.length then acc
    else
      match fs f.file with
      | .error _ => searchLoop driveInfo fs lowerQuery maxResults rest acc
      | .ok entries =>
        searchLoop driveInfo fs lowerQuery maxResults rest
          (streamSearchIndexFile lowerQuery maxResults (decodeVolumeUUID f.file)
            ((driveInfo (decodeVolumeUUID f.file)).getD "Unknown Drive".toList)
            f.file entries acc)

/-- Model of `searchDrivesAsync`.  `driveInfo` is the preference-store map
from decoded volume UUID to drive name (`loadDriveInfo`); `fs` is what
streaming each index file yields; `dir` is the directory listing, `none` when
the index directory is absent.  The listing is filtered to `.json` files,
ordered by ascending size with a stable sort, scanned document by document
under the shared `maxResults` budget, and the pooled results are sorted and
truncated. -/
def searchDrivesAsync (driveInfo : Str → Option Str) (fs : FileSystem)
    (dir : Option (List IndexDoc)) (query : Str) (maxResults : Nat) :
    List SearchResult :=
  let lowerQuery := trim (lower query)
  if lowerQuery = [] then []
  else
    match dir with
    | none => []
    | some files =>
      let fileStats := files.filter (fun f => decide (".json".toList <:+ f.file))
      let sorted := List.insertionSort (fun a b => a.size ≤ b.size) fileStats
      let results := searchLoop driveInfo fs lowerQuery maxResults sorted []
      rankResults lowerQuery results maxResults

/-- One persisted recency record (`AccessRecord` of the spec, §3). -/
structure AccessRecord where
  volumeId : Str
  relativePath : Str
  lastAccessedAt : Nat
  accessCount : Nat
deriving DecidableEq

/-- The (volume, path) key of a recency record. -/
def recPair (r : AccessRecord) : Str × Str := (r.volumeId, r.relativePath)

/-- Sort relation of the recency store: last access time descending. -/
def recLE (a b : AccessRecord) : Prop := b.lastAccessedAt ≤ a.lastAccessedAt

instance : DecidableRel recLE := fun a b => Nat.decLe _ _

instance : IsTotal AccessRecord recLE :=
  ⟨fun a b => (Nat.le_total b.lastAccessedAt a.lastAccessedAt).imp id id⟩

instance : IsTrans AccessRecord recLE :=
  ⟨fun _ _ _ h h2 => Nat.le_trans h2 h⟩

/-- The fixed capacity of the recency store. -/
def recencyCapacity : Nat := 100

/-- Modelled from the spec: `recordAccess` of §4.5; the implementation
(`recordFileAccess`, imported by the command view) is absent from src/.
Look up the record for the pair: if present refresh its timestamp and
increment its count, otherwise insert a new record with count 1; then re-sort
all records by last access time descending and keep only the first 100. -/
def recordAccess (s : List AccessRecord) (v p : Str) (t : Nat) :
    List AccessRecord :=
  let updated :=
    if s.any (fun r => decide (recPair r = (v, p))) then
      s.map (fun r =>
        if recPair r = (v, p) then
          { r with lastAccessedAt := t, accessCount := r.accessCount + 1 }
        else r)
    else s ++ [⟨v, p, t, 1⟩]
  (List.insertionSort recLE updated).take recencyCapacity

/-- One `recordAccess` call: the pair accessed and the time of the call. -/
structure AccessCall where
  volumeId : Str
  relativePath : Str
  time : Nat
deriving DecidableEq

/-- The key of a call. -/
def callPair (c : AccessCall) : Str × Str := (c.volumeId, c.relativePath)

/-- Run a sequence of `recordAccess` calls against an initially empty store. -/
def runRecency (calls : List AccessCall) : List AccessRecord :=
  calls.foldl (fun s c => recordAccess s c.volumeId c.relativePath c.time) []

/-- The distinct accessed pairs ordered most-recently-accessed first. -/
def mruPairs (calls : List AccessCall) : List (Str × Str) :=
  ((calls.map callPair).dedup).reverse

/-- Invariant of the recency store between calls whose times stay below
`bound`: records are sorted by last access time descending with pairwise
distinct times, all times are below `bound`, the (volume, path) keys are
distinct, and the capacity is respected. -/
def StoreInv (s : List AccessRecord) (bound : Nat) : Prop :=
  s.Sorted recLE ∧
  s.Pairwise (fun a b => a.lastAccessedAt ≠ b.lastAccessedAt) ∧
  (∀ r ∈ s, r.lastAccessedAt < bound) ∧
  (s.map recPair).Nodup ∧
  s.length ≤ 100

theorem lower_length (s : Str) : (lower s).length = s.length := by
  simp [lower]

theorem length_le_of_substring {q n : Str} (h : q <:+: n) : q.length ≤ n.length := by
  obtain ⟨s, t, rfl⟩ := h
  simp [List.length_append]
  omega

/-- If the normalized query is a substring of the normalized candidate, the
score is exactly the substring formula. -/
theorem score_substring (q n : Str) (hq : q ≠ []) (h : lower q <:+: lower n) :
    score q n = 90 + 10 * ((q.length : ℚ) / (n.length : ℚ)) := by
  unfold score
  by_cases heq : lower q = lower n
  · have hlen : q.length = n.length := by
      have := congrArg List.length heq
      simpa [lower_length] using this
    have hq0 : q.length ≠ 0 := by
      simpa [List.length_eq_zero] using hq
    rw [if_pos heq, hlen]
    have hn0 : (n.length : ℚ) ≠ 0 := by
      exact_mod_cast hlen ▸ hq0
    field_simp
    norm_num
  · rw [if_neg heq, if_pos h, lower_length, lower_length]

/-- Bounds on the substring branch: the score lies in `[90, 100]`. -/
theorem score_substring_bounds (q n : Str) (hq : q ≠ [])
    (h : lower q <:+: lower n) :
    90 ≤ score q n ∧ score q n ≤ 100 := by
  rw [score_substring q n hq h]
  have hqlen : 1 ≤ q.length := by
    cases q with
    | nil => exact absurd rfl hq
    | cons a l => simp
  have hle : q.length ≤ n.length := by
    have := length_le_of_substring h
    simpa [lower_length] using this
  have h1 : (1 : ℚ) ≤ (q.length : ℚ) := by exact_mod_cast hqlen
  have h2 : (q.length : ℚ) ≤ (n.length : ℚ) := by exact_mod_cast hle
  have hnpos : (0 : ℚ) < (n.length : ℚ) := by linarith
  constructor
  · have : 0 ≤ (q.length : ℚ) / (n.length : ℚ) := by positivity
    linarith
  · have : (q.length : ℚ) / (n.length : ℚ) ≤ 1 := by
      rw [div_le_one hnpos]; exact h2
    linarith

/-- C2: Substring scoring formula.  For every non-empty query `q` and
candidate `n` whose lowercase form contains the lowercase query as a
contiguous substring, `score q n = 90 + 10 * (len q / len n)`, the score lies
in `[90, 100]`, and the score is monotonically increasing in the ratio
`len q / len n`. -/
theorem substring_score_formula_C2 :
    (∀ q n : Str, q ≠ [] → lower q <:+: lower n →
      score q n = 90 + 10 * ((q.length : ℚ) / (n.length : ℚ)) ∧
        90 ≤ score q n ∧ score q n ≤ 100) ∧
    (∀ q₁ n₁ q₂ n₂ : Str, q₁ ≠ [] → lower q₁ <:+: lower n₁ →
      q₂ ≠ [] → lower q₂ <:+: lower n₂ →
      (q₁.length : ℚ) / (n₁.length : ℚ) ≤ (q₂.length : ℚ) / (n₂.length : ℚ) →
      score q₁ n₁ ≤ score q₂ n₂) := by
  constructor
  · intro q n hq h
    exact ⟨score_substring q n hq h, score_substring_bounds q n hq h⟩
  · intro q₁ n₁ q₂ n₂ hq₁ h₁ hq₂ h₂ hr
    rw [score_substring q₁ n₁ hq₁ h₁, score_substring q₂ n₂ hq₂ h₂]
    linarith

/-- Witness for C2 at concrete inputs: query `test` against candidate
`test.txt` (ratio `1/2`) and against `my_test_document.txt` (ratio `1/5`). -/
theorem substring_score_formula_C2_witness :
    score "test".toList "my_test_document.txt".toList ≤
      score "test".toList "test.txt".toList ∧
    score "test".toList "test.txt".toList = 95 := by
  constructor
  · exact substring_score_formula_C2.2 "test".toList "my_test_document.txt".toList
      "test".toList "test.txt".toList (by decide) (by decide) (by decide)
      (by decide) (by norm_num)
  · have h := (substring_score_formula_C2.1 "test".toList "test.txt".toList
      (by decide) (by decide)).1
    rw [h]
    norm_num

/-- C3: Score identity.  `score s s = 100` for every string, and more
generally any pair that agrees after lowercase normalization scores the
maximum 100. -/
theorem score_identity_C3 :
    (∀ s : Str, score s s = 100) ∧
    (∀ q n : Str, lower q = lower n → score q n = 100) := by
  constructor
  · intro s
    simp [score]
  · intro q n h
    simp [score, h]

/-- Witness for C3 at a concrete input: `AbC` against `aBc` normalize to the
same string and score 100. -/
theorem score_identity_C3_witness : score "AbC".toList "aBc".toList = 100 :=
  score_identity_C3.2 "AbC".toList "aBc".toList (by decide)

/-- Unfolding lemma: an empty trimmed query returns no results. -/
theorem search_empty_query (driveInfo : Str → Option Str) (fs : FileSystem)
    (dir : Option (List IndexDoc)) (q : Str) (k : Nat)
    (h : trim (lower q) = []) : searchDrivesAsync driveInfo fs dir q k = [] := by
  simp [searchDrivesAsync, h]

/-- Unfolding lemma: an absent index directory returns no results. -/
theorem search_none (driveInfo : Str → Option Str) (fs : FileSystem)
    (q : Str) (k : Nat) : searchDrivesAsync driveInfo fs none q k = [] := by
  by_cases h : trim (lower q) = [] <;> simp [searchDrivesAsync, h]

/-- Unfolding lemma: the pipeline for a present directory and a non-empty
trimmed query. -/
theorem search_some (driveInfo : Str → Option Str) (fs : FileSystem)
    (files : List IndexDoc) (q : Str) (k : Nat)
    (h : ¬ trim (lower q) = []) :
    searchDrivesAsync driveInfo fs (some files) q k =
      rankResults (trim (lower q))
        (searchLoop driveInfo fs (trim (lower q)) k
          (List.insertionSort (fun a b => a.size ≤ b.size)
            (files.filter (fun f => decide (".json".toList <:+ f.file)))) []) k := by
  simp [searchDrivesAsync, h]

/-- C9: a missing index directory is an empty state, not an error: for every
query and every budget, `searchDrivesAsync` returns `[]` when the directory
is absent. -/
theorem missing_dir_empty_C9 :
    ∀ (driveInfo : Str → Option Str) (fs : FileSystem) (q : Str) (k : Nat),
      searchDrivesAsync driveInfo fs none q k = [] :=
  fun driveInfo fs q k => search_none driveInfo fs q k

/-- C5: budget law: the result list of `searchDrivesAsync` never exceeds
`maxResults`, whatever the on-disk state is. -/
theorem budget_law_C5 :
    ∀ (driveInfo : Str → Option Str) (fs : FileSystem)
      (dir : Option (List IndexDoc)) (q : Str) (k : Nat),
      (searchDrivesAsync driveInfo fs dir q k).length ≤ k := by
  intro driveInfo fs dir q k
  by_cases h : trim (lower q) = []
  · simp [search_empty_query driveInfo fs dir q k h]
  · cases dir with
    | none => simp [search_none]
    | some files =>
      rw [search_some driveInfo fs files q k h, rankResults]
      exact List.length_take_le k _

/-- Every result the entry scan adds satisfies the streaming match predicate:
non-empty name, non-empty relative path, and the query as a contiguous
substring of the name. -/
theorem streamSearch_mem (query : Str) (m : Nat) (u d f : Str) :
    ∀ (es : List SearchEntry) (acc : List SearchResult) (r : SearchResult),
      r ∈ streamSearchIndexFile query m u d f es acc →
      r ∈ acc ∨
        (r.entry.name ≠ [] ∧ r.entry.relativePath ≠ [] ∧ query <:+: r.entry.name) := by
  intro es
  induction es with
  | nil => intro acc r h; exact Or.inl h
  | cons e es ih =>
    intro acc r h
    rw [streamSearchIndexFile] at h
    split at h
    · exact Or.inl h
    · split at h
      next hc =>
        rcases ih _ r h with h1 | h1
        · rcases List.mem_append.mp h1 with h2 | h2
          · exact Or.inl h2
          · obtain rfl : r = ⟨e, u, d, f⟩ := by simpa using h2
            exact Or.inr hc
        · exact Or.inr h1
      next => exact ih _ r h

/-- Every result the document loop adds satisfies the streaming match
predicate. -/
theorem searchLoop_mem (driveInfo : Str → Option Str) (fs : FileSystem)
    (query : Str) (m : Nat) :
    ∀ (docs : List IndexDoc) (acc : List SearchResult) (r : SearchResult),
      r ∈ searchLoop driveInfo fs query m docs acc →
      r ∈ acc ∨
        (r.entry.name ≠ [] ∧ r.entry.relativePath ≠ [] ∧ query <:+: r.entry.name) := by
  intro docs
  induction docs with
  | nil => intro acc r h; exact Or.inl h
  | cons f rest ih =>
    intro acc r h
    rw [searchLoop] at h
    split at h
    · exact Or.inl h
    · split at h
      · exact ih _ r h
      · rcases ih _ r h with h1 | h1
        · exact streamSearch_mem query m _ _ _ _ _ r h1
        · exact Or.inr h1

/-- Every result of `searchDrivesAsync` satisfies the streaming match
predicate for the trimmed lowercased query, which moreover is non-empty. -/
theorem search_mem_invariant (driveInfo : Str → Option Str) (fs : FileSystem)
    (dir : Option (List IndexDoc)) (q : Str) (k : Nat) (r : SearchResult)
    (h : r ∈ searchDrivesAsync driveInfo fs dir q k) :
    trim (lower q) ≠ [] ∧ r.entry.name ≠ [] ∧ r.entry.relativePath ≠ [] ∧
      trim (lower q) <:+: r.entry.name := by
  by_cases hne : trim (lower q) = []
  · rw [search_empty_query driveInfo fs dir q k hne] at h
    simp at h
  · cases dir with
    | none =>
      rw [search_none] at h
      simp at h
    | some files =>
      refine ⟨hne, ?_⟩
      rw [search_some driveInfo fs files q k hne, rankResults] at h
      have h2 := (List.perm_insertionSort (rankLE (trim (lower q))) _).mem_iff.mp
        (List.mem_of_mem_take h)
      rcases searchLoop_mem driveInfo fs _ k _ _ r h2 with h3 | h3
      · simp at h3
      · exact h3

/-- C10: implicit output invariant of the streaming search: every result of
`searchDrivesAsync` has an entry whose name contains the trimmed lowercased
query as a contiguous substring, and whose name and relative path are both
non-empty; the match predicate never consults the relative path and admits no
non-substring matches. -/
theorem streaming_match_invariant_C10 :
    ∀ (driveInfo : Str → Option Str) (fs : FileSystem)
      (dir : Option (List IndexDoc)) (q : Str) (k : Nat) (r : SearchResult),
      r ∈ searchDrivesAsync driveInfo fs dir q k →
      r.entry.name ≠ [] ∧ r.entry.relativePath ≠ [] ∧
        trim (lower q) <:+: r.entry.name :=
  fun driveInfo fs dir q k r h =>
    (search_mem_invariant driveInfo fs dir q k r h).2

/-- Witness for C10: a one-document index state in which the query `B`
matches the entry `abc` and the returned result satisfies the invariant. -/
theorem streaming_match_invariant_C10_witness :
    (⟨⟨"abc".toList, "p/abc".toList⟩, decodeVolumeUUID "a.json".toList,
        "Unknown Drive".toList, "a.json".toList⟩ : SearchResult).entry.name ≠ [] ∧
      (⟨⟨"abc".toList, "p/abc".toList⟩, decodeVolumeUUID "a.json".toList,
        "Unknown Drive".toList, "a.json".toList⟩ : SearchResult).entry.relativePath ≠ [] ∧
      trim (lower "B".toList) <:+:
        (⟨⟨"abc".toList, "p/abc".toList⟩, decodeVolumeUUID "a.json".toList,
          "Unknown Drive".toList, "a.json".toList⟩ : SearchResult).entry.name :=
  streaming_match_invariant_C10 (fun _ => none)
    (fun _ => Except.ok [⟨"abc".toList, "p/abc".toList⟩])
    (some [⟨"a.json".toList, 5⟩]) "B".toList 10
    ⟨⟨"abc".toList, "p/abc".toList⟩, decodeVolumeUUID "a.json".toList,
      "Unknown Drive".toList, "a.json".toList⟩ (by decide)

/-- Mapping `lower` over both sides preserves the substring relation. -/
theorem lower_keeps_substring {q n : Str} (h : q <:+: n) : lower q <:+: lower n := by
  obtain ⟨s, t, rfl⟩ := h
  exact ⟨lower s, lower t, by simp [lower]⟩

/-- C1: threshold law: every result of `searchDrivesAsync` scores strictly
above the fixed threshold 60 against the query the scanner matched with (the
trimmed lowercased query); candidates at or below the threshold never appear.
The match-score function is modelled from the spec (§4.1); with the streaming
substring predicate of the code, every returned entry in fact scores at least
90. -/
theorem threshold_law_C1 :
    ∀ (driveInfo : Str → Option Str) (fs : FileSystem)
      (dir : Option (List IndexDoc)) (q : Str) (k : Nat) (r : SearchResult),
      r ∈ searchDrivesAsync driveInfo fs dir q k →
      60 < score (trim (lower q)) r.entry.name := by
  intro driveInfo fs dir q k r h
  obtain ⟨hne, _, _, hinf⟩ := search_mem_invariant driveInfo fs dir q k r h
  have hb := (score_substring_bounds _ _ hne (lower_keeps_substring hinf)).1
  linarith

/-- Witness for C1: in the one-document state of the C10 witness, the single
returned result scores strictly above 60. -/
theorem threshold_law_C1_witness :
    60 < score (trim (lower "B".toList))
      (⟨⟨"abc".toList, "p/abc".toList⟩, decodeVolumeUUID "a.json".toList,
        "Unknown Drive".toList, "a.json".toList⟩ : SearchResult).entry.name :=
  threshold_law_C1 (fun _ => none)
    (fun _ => Except.ok [⟨"abc".toList, "p/abc".toList⟩])
    (some [⟨"a.json".toList, 5⟩]) "B".toList 10
    ⟨⟨"abc".toList, "p/abc".toList⟩, decodeVolumeUUID "a.json".toList,
      "Unknown Drive".toList, "a.json".toList⟩ (by decide)

/-- C8: per-document failure isolation: a search in which streaming one
document fails returns exactly what it returns when that document merely
yields no entries — the failure drops only that document, the remaining
documents are still scanned, and the query never aborts. -/
theorem failure_isolation_C8 :
    ∀ (driveInfo : Str → Option Str) (fs : FileSystem)
      (dir : Option (List IndexDoc)) (q : Str) (k : Nat) (f : Str),
      searchDrivesAsync driveInfo
          (fun g => if g = f then Except.error () else fs g) dir q k =
        searchDrivesAsync driveInfo
          (fun g => if g = f then Except.ok [] else fs g) dir q k := by
  intro driveInfo fs dir q k f
  by_cases hq : trim (lower q) = []
  · rw [search_empty_query _ _ dir q k hq, search_empty_query _ _ dir q k hq]
  · cases dir with
    | none => rw [search_none, search_none]
    | some files =>
      have hloop : ∀ (docs : List IndexDoc) (acc : List SearchResult),
          searchLoop driveInfo (fun g => if g = f then Except.error () else fs g)
              (trim (lower q)) k docs acc =
            searchLoop driveInfo (fun g => if g = f then Except.ok [] else fs g)
              (trim (lower q)) k docs acc := by
        intro docs
        induction docs with
        | nil => intro acc; rfl
        | cons d rest ih =>
          intro acc
          rw [searchLoop, searchLoop]
          by_cases hb : k ≤ acc.length
          · rw [if_pos hb, if_pos hb]
          · rw [if_neg hb, if_neg hb]
            by_cases hd : d.file = f
            · rw [if_pos hd, if_pos hd]
              exact ih _
            · rw [if_neg hd, if_neg hd]
              match fs d.file with
              | .error _ => exact ih _
              | .ok entries => exact ih _
      rw [search_some _ _ files q k hq, search_some _ _ files q k hq, hloop]

/-- C4: the final sort of `searchDrivesAsync` does not order by match score.
At this concrete input — query `a`, one result named `a` (score 100, drive
`z`) and one named `ab` (score 95, drive `b`) — the code's ranking returns
the lower-scoring result first, because the comparator only checks whether
the filename contains the query (true for both) and then falls back to drive
name and path; the repository README instead documents score-descending
order. -/
theorem rank_ignores_matchScore_C4 :
    rankResults "a".toList
        [⟨⟨"a".toList, "p".toList⟩, "u".toList, "z".toList, "f".toList⟩,
          ⟨⟨"ab".toList, "p".toList⟩, "u".toList, "b".toList, "f".toList⟩] 10 =
      [⟨⟨"ab".toList, "p".toList⟩, "u".toList, "b".toList, "f".toList⟩,
        ⟨⟨"a".toList, "p".toList⟩, "u".toList, "z".toList, "f".toList⟩] ∧
    score "a".toList "ab".toList < score "a".toList "a".toList := by
  constructor
  · decide
  · have h1 : score "a".toList "a".toList = 100 := by simp [score]
    have h2 := score_substring "a".toList "ab".toList (by decide) (by decide)
    rw [h1, h2, show ("a".toList).length = 1 from rfl,
      show ("ab".toList).length = 2 from rfl]
    norm_num

theorem b64val_b64char : ∀ s : Nat, s < 64 → b64val (b64char s) = some s := by
  decide

theorem b64val_pad : b64val '=' = none := by decide

theorem b64char_ne_dot : ∀ n : Nat, b64char n ≠ '.' := by
  intro n
  by_cases h : n < 64
  · exact (by decide : ∀ m : Nat, m < 64 → b64char m ≠ '.') n h
  · unfold b64char
    rw [List.getD_eq_default]
    · decide
    · have hlen : b64alphabet.length = 64 := by decide
      omega

theorem b64encode_ne_dot : ∀ (l : List Nat), ∀ c ∈ b64encode l, c ≠ '.'
  | [] => by simp [b64encode]
  | [a] => by
    intro x hx
    simp [b64encode] at hx
    rcases hx with h | h | h
    · exact h ▸ b64char_ne_dot _
    · exact h ▸ b64char_ne_dot _
    · simp [h]
  | [a, b] => by
    intro x hx
    simp [b64encode] at hx
    rcases hx with h | h | h | h
    · exact h ▸ b64char_ne_dot _
    · exact h ▸ b64char_ne_dot _
    · exact h ▸ b64char_ne_dot _
    · simp [h]
  | a :: b :: c :: rest => by
    intro x hx
    simp [b64encode] at hx
    rcases hx with h | h | h | h | h
    · exact h ▸ b64char_ne_dot _
    · exact h ▸ b64char_ne_dot _
    · exact h ▸ b64char_ne_dot _
    · exact h ▸ b64char_ne_dot _
    · exact b64encode_ne_dot rest x h

theorem removeJsonExt_eq_self : ∀ (l : Str), (∀ c ∈ l, c ≠ '.') →
    removeJsonExt l = l
  | [], _ => rfl
  | c :: rest, h => by
    have hc : c ≠ '.' := h c (by simp)
    have h1 : ¬ ((c :: rest).take 5 = ".json".toList) := by
      intro habs
      rw [show (".json".toList : Str) = '.' :: 'j' :: 's' :: 'o' :: 'n' :: [] from rfl,
        List.take_succ_cons] at habs
      injection habs with hh _
      exact hc hh
    rw [removeJsonExt, if_neg h1,
      removeJsonExt_eq_self rest (fun x hx => h x (by simp [hx]))]

theorem b64_decode_encode : ∀ (l : List Nat), (∀ x ∈ l, x < 256) →
    b64decodeVals ((b64encode l).filterMap b64val) = l
  | [], _ => rfl
  | [a], h => by
    have ha : a < 256 := h a (by simp)
    rw [show b64encode [a] = [b64char (a / 4), b64char (a % 4 * 16), '=', '=']
      from rfl]
    simp only [List.filterMap_cons, b64val_b64char _ (show a / 4 < 64 by omega),
      b64val_b64char _ (show a % 4 * 16 < 64 by omega), b64val_pad,
      List.filterMap_nil]
    rw [show b64decodeVals [a / 4, a % 4 * 16] = [a / 4 * 4 + a % 4 * 16 / 16]
      from rfl]
    simp only [List.cons.injEq, and_true]
    omega
  | [a, b], h => by
    have ha : a < 256 := h a (by simp)
    have hb : b < 256 := h b (by simp)
    rw [show b64encode [a, b] =
      [b64char (a / 4), b64char (a % 4 * 16 + b / 16), b64char (b % 16 * 4), '=']
      from rfl]
    simp only [List.filterMap_cons, b64val_b64char _ (show a / 4 < 64 by omega),
      b64val_b64char _ (show a % 4 * 16 + b / 16 < 64 by omega),
      b64val_b64char _ (show b % 16 * 4 < 64 by omega), b64val_pad,
      List.filterMap_nil]
    rw [show b64decodeVals [a / 4, a % 4 * 16 + b / 16, b % 16 * 4] =
      [a / 4 * 4 + (a % 4 * 16 + b / 16) / 16,
        (a % 4 * 16 + b / 16) % 16 * 16 + b % 16 * 4 / 4] from rfl]
    simp only [List.cons.injEq, and_true]
    omega
  | a :: b :: c :: rest, h => by
    have ha : a < 256 := h a (by simp)
    have hb : b < 256 := h b (by simp)
    have hc : c < 256 := h c (by simp)
    have ih := b64_decode_encode rest (fun x hx => h x (by simp [hx]))
    rw [show b64encode (a :: b :: c :: rest) =
      b64char (a / 4) :: b64char (a % 4 * 16 + b / 16) ::
        b64char (b % 16 * 4 + c / 64) :: b64char (c % 64) ::
        b64encode rest from rfl]
    simp only [List.filterMap_cons, b64val_b64char _ (show a / 4 < 64 by omega),
      b64val_b64char _ (show a % 4 * 16 + b / 16 < 64 by omega),
      b64val_b64char _ (show b % 16 * 4 + c / 64 < 64 by omega),
      b64val_b64char _ (show c % 64 < 64 by omega)]
    rw [show ∀ tl, b64decodeVals (a / 4 :: (a % 4 * 16 + b / 16) ::
        (b % 16 * 4 + c / 64) :: c % 64 :: tl) =
      (a / 4 * 4 + (a % 4 * 16 + b / 16) / 16) ::
        ((a % 4 * 16 + b / 16) % 16 * 16 + (b % 16 * 4 + c / 64) / 4) ::
        ((b % 16 * 4 + c / 64) % 4 * 64 + c % 64) :: b64decodeVals tl
      from fun tl => rfl, ih]
    simp only [List.cons.injEq, and_true]
    omega

/-- C7 (amended): for every identifier over the 7-bit ASCII alphabet the
encode/decode pair is a lossless round trip; and decoding treats characters
outside the base64 alphabet by ignoring them (the catch fallback in the
source is unreachable), so a malformed filename decodes to the decoding of
its valid base64 digits — possibly the empty identifier — rather than to the
raw stripped filename. -/
theorem volume_uuid_roundtrip_C7 :
    (∀ u : Str, (∀ c ∈ u, c.toNat < 128) →
      decodeVolumeUUID (encodeVolumeUUID u) = u) ∧
    (∀ f : Str, b64decode f = b64decode (f.filter (fun c => (b64val c).isSome))) := by
  constructor
  · intro u h
    unfold decodeVolumeUUID encodeVolumeUUID b64decode
    rw [removeJsonExt_eq_self _ (fun c hc => b64encode_ne_dot _ c hc),
      b64_decode_encode _ (fun x hx => by
        obtain ⟨c, _, rfl⟩ := List.mem_map.mp hx
        omega),
      List.map_map]
    have hmap : ∀ c ∈ u,
        ((fun b => Char.ofNat (b % 128)) ∘ fun c => c.toNat % 256) c = id c := by
      intro c hc
      have hlt := h c hc
      simp only [Function.comp_apply, id]
      rw [Nat.mod_eq_of_lt (by omega), Nat.mod_eq_of_lt (by omega),
        Char.ofNat_toNat]
    rw [List.map_congr_left hmap, List.map_id]
  · intro f
    unfold b64decode
    congr 1
    induction f with
    | nil => rfl
    | cons c rest ih =>
      by_cases h : (b64val c).isSome
      · obtain ⟨v, hv⟩ := Option.isSome_iff_exists.mp h
        simp [List.filterMap_cons, h, hv, ih]
      · have hv : b64val c = none := Option.not_isSome_iff_eq_none.mp h
        simp [List.filterMap_cons, h, hv, ih]

/-- Witness for C7 at the concrete identifier documented in the source: the
UUID from the drivebuddy.ts doc comment round-trips. -/
theorem volume_uuid_roundtrip_C7_witness :
    decodeVolumeUUID
        (encodeVolumeUUID "6B75ED22-0332-3A5C-8252-15681FB01E4A".toList) =
      "6B75ED22-0332-3A5C-8252-15681FB01E4A".toList :=
  volume_uuid_roundtrip_C7.1 "6B75ED22-0332-3A5C-8252-15681FB01E4A".toList
    (by decide)

/-- Counterexample for C7 as stated: the filename `!!!.json` is malformed
(not base64), yet `decodeVolumeUUID` does not return the raw filename with
the extension stripped — the lenient decoder ignores the invalid characters
and yields the empty identifier. -/
theorem volume_uuid_fallback_cex_C7 :
    decodeVolumeUUID "!!!.json".toList ≠ "!!!".toList := by decide

/-- Two sorted permutations of one another with pairwise distinct access
times are equal: sorting by time descending is deterministic when times are
distinct. -/
theorem sorted_unique_by_time :
    ∀ (l₁ l₂ : List AccessRecord), List.Perm l₁ l₂ →
      l₁.Sorted recLE → l₂.Sorted recLE →
      l₁.Pairwise (fun a b => a.lastAccessedAt ≠ b.lastAccessedAt) →
      l₁ = l₂ := by
  intro l₁
  induction l₁ with
  | nil =>
    intro l₂ hp _ _ _
    exact hp.nil_eq
  | cons a t₁ ih =>
    intro l₂ hp hs₁ hs₂ hd
    cases l₂ with
    | nil => simpa using hp.length_eq
    | cons b t₂ =>
      have hab : a = b := by
        by_contra hne
        have hbmem : b ∈ a :: t₁ := hp.symm.subset (List.mem_cons_self b t₂)
        have hamem : a ∈ b :: t₂ := hp.subset (List.mem_cons_self a t₁)
        have hb1 : b ∈ t₁ := by
          rcases List.mem_cons.mp hbmem with h | h
          · exact absurd h.symm hne
          · exact h
        have ha2 : a ∈ t₂ := by
          rcases List.mem_cons.mp hamem with h | h
          · exact absurd h hne
          · exact h
        have h1 : b.lastAccessedAt ≤ a.lastAccessedAt :=
          List.rel_of_sorted_cons hs₁ b hb1
        have h2 : a.lastAccessedAt ≤ b.lastAccessedAt :=
          List.rel_of_sorted_cons hs₂ a ha2
        have h3 : a.lastAccessedAt ≠ b.lastAccessedAt :=
          (List.pairwise_cons.mp hd).1 b hb1
        omega
      subst hab
      have ht : List.Perm t₁ t₂ := hp.cons_inv
      rw [ih t₂ ht (List.sorted_cons.mp hs₁).2 (List.sorted_cons.mp hs₂).2
        (List.pairwise_cons.mp hd).2]

/-- Insertion-sorting any permutation of a sorted list with distinct access
times recovers that list. -/
theorem insertionSort_eq_of_perm (m : List AccessRecord)
    (x : AccessRecord) (l : List AccessRecord)
    (hperm : List.Perm m (x :: l)) (hsort : (x :: l).Sorted recLE)
    (hdist : (x :: l).Pairwise (fun a b => a.lastAccessedAt ≠ b.lastAccessedAt)) :
    List.insertionSort recLE m = x :: l :=
  sorted_unique_by_time _ _ ((List.perm_insertionSort recLE m).trans hperm)
    (List.sorted_insertionSort recLE m) hsort
    ((((List.perm_insertionSort recLE m).trans hperm).pairwise_iff
      (fun h => h.symm)).mpr hdist)

/-- What one `recordAccess` call does under the store invariant: the store
becomes a record for the accessed pair with the call time, followed by the
surviving earlier records, truncated to capacity. -/
theorem recordAccess_spec (s : List AccessRecord) (v p : Str) (t : Nat)
    (hinv : StoreInv s t) :
    ∃ x : AccessRecord, recPair x = (v, p) ∧ x.lastAccessedAt = t ∧
      recordAccess s v p t =
        (x :: s.filter (fun r => ¬(recPair r = (v, p)))).take 100 := by
  obtain ⟨hsort, hne, hlt, hnodup, _⟩ := hinv
  unfold recordAccess recencyCapacity
  by_cases hmem : s.any (fun r => decide (recPair r = (v, p)))
  · rw [if_pos hmem]
    obtain ⟨r₀, hr₀s, hr₀p⟩ : ∃ r₀ ∈ s, recPair r₀ = (v, p) := by
      simpa using hmem
    obtain ⟨s₁, s₂, rfl⟩ := List.append_of_mem hr₀s
    have hnotin : (v, p) ∉ (s₁ ++ s₂).map recPair := by
      have h1 : ((s₁ ++ r₀ :: s₂).map recPair).Nodup := hnodup
      rw [List.map_append, List.map_cons] at h1
      have h2 := List.nodup_middle.mp h1
      rw [← List.map_append] at h2
      rw [← hr₀p]
      exact (List.nodup_cons.mp h2).1
    have hothers : ∀ r ∈ s₁ ++ s₂, ¬(recPair r = (v, p)) := by
      intro r hr habs
      exact hnotin (habs ▸ List.mem_map_of_mem recPair hr)
    have hid : ∀ (l : List AccessRecord), (∀ r ∈ l, ¬(recPair r = (v, p))) →
        l.map (fun r => if recPair r = (v, p) then
          { r with lastAccessedAt := t, accessCount := r.accessCount + 1 }
          else r) = l := by
      intro l hl
      rw [List.map_congr_left (fun r hr => if_neg (hl r hr))]
      simp
    refine ⟨{ r₀ with lastAccessedAt := t, accessCount := r₀.accessCount + 1 },
      by simpa [recPair] using hr₀p, rfl, ?_⟩
    rw [List.map_append, hid s₁ (fun r hr => hothers r (List.mem_append_left _ hr)),
      List.map_cons, if_pos hr₀p,
      hid s₂ (fun r hr => hothers r (List.mem_append_right _ hr))]
    have hfil : (s₁ ++ r₀ :: s₂).filter (fun r => ¬(recPair r = (v, p))) =
        s₁ ++ s₂ := by
      rw [List.filter_append, List.filter_cons,
        List.filter_eq_self.mpr (fun r hr => by
          simpa using hothers r (List.mem_append_left _ hr)),
        List.filter_eq_self.mpr (fun r hr => by
          simpa using hothers r (List.mem_append_right _ hr))]
      simp [hr₀p]
    rw [hfil]
    refine congrArg (List.take 100)
      (insertionSort_eq_of_perm _ _ _ List.perm_middle ?_ ?_)
    · rw [List.sorted_cons]
      refine ⟨fun r hr => ?_, ?_⟩
      · have : r ∈ s₁ ++ r₀ :: s₂ := by
          rcases List.mem_append.mp hr with h | h
          · exact List.mem_append_left _ h
          · exact List.mem_append_right _ (List.mem_cons_of_mem _ h)
        exact Nat.le_of_lt (hlt r this)
      · exact List.Pairwise.sublist
          ((List.sublist_cons_self r₀ s₂).append_left s₁) hsort
    · rw [List.pairwise_cons]
      refine ⟨fun r hr => ?_, ?_⟩
      · have : r ∈ s₁ ++ r₀ :: s₂ := by
          rcases List.mem_append.mp hr with h | h
          · exact List.mem_append_left _ h
          · exact List.mem_append_right _ (List.mem_cons_of_mem _ h)
        have := hlt r this
        show t ≠ r.lastAccessedAt
        omega
      · exact List.Pairwise.sublist
          ((List.sublist_cons_self r₀ s₂).append_left s₁) hne
  · rw [if_neg hmem]
    have hall : ∀ r ∈ s, ¬(recPair r = (v, p)) := by
      intro r hr habs
      exact hmem (List.any_eq_true.mpr ⟨r, hr, by simp [habs]⟩)
    refine ⟨⟨v, p, t, 1⟩, rfl, rfl, ?_⟩
    rw [List.filter_eq_self.mpr (fun r hr => by simpa using hall r hr)]
    refine congrArg (List.take 100)
      (insertionSort_eq_of_perm _ _ _ (List.perm_append_singleton _ _) ?_ ?_)
    · rw [List.sorted_cons]
      exact ⟨fun r hr => Nat.le_of_lt (hlt r hr), hsort⟩
    · rw [List.pairwise_cons]
      refine ⟨fun r hr => ?_, hne⟩
      have := hlt r hr
      show t ≠ r.lastAccessedAt
      omega

/-- Filtering by key commutes with projecting to keys. -/
theorem map_recPair_filter (y : Str × Str) :
    ∀ s : List AccessRecord,
      (s.filter (fun r => ¬(recPair r = y))).map recPair =
        (s.map recPair).filter (fun q => ¬(q = y)) := by
  intro s
  rw [List.filter_map]
  rfl

/-- The key-level effect of one `recordAccess` call: the accessed pair moves
to the front, the other keys keep their order, and the list is truncated to
100. -/
theorem recordAccess_pairs (s : List AccessRecord) (v p : Str) (t : Nat)
    (hinv : StoreInv s t) :
    (recordAccess s v p t).map recPair =
      ((v, p) :: (s.map recPair).filter (fun q => ¬(q = (v, p)))).take 100 := by
  obtain ⟨x, hxp, _, heq⟩ := recordAccess_spec s v p t hinv
  rw [heq, List.map_take, List.map_cons, hxp, map_recPair_filter]

/-- One `recordAccess` call preserves the store invariant at any later
bound. -/
theorem recordAccess_inv (s : List AccessRecord) (v p : Str) (t : Nat)
    (hinv : StoreInv s t) (b : Nat) (hb : t < b) :
    StoreInv (recordAccess s v p t) b := by
  obtain ⟨hsort, hne, hlt, hnodup, hlen⟩ := hinv
  obtain ⟨x, hxp, hxt, heq⟩ := recordAccess_spec s v p t ⟨hsort, hne, hlt, hnodup, hlen⟩
  rw [heq]
  have hsub : List.Sublist (s.filter (fun r => ¬(recPair r = (v, p)))) s :=
    List.filter_sublist s
  have hmemlt : ∀ r ∈ s.filter (fun r => ¬(recPair r = (v, p))),
      r.lastAccessedAt < t := fun r hr => hlt r (hsub.subset hr)
  have hcons_sorted : (x :: s.filter (fun r => ¬(recPair r = (v, p)))).Sorted recLE := by
    rw [List.sorted_cons]
    refine ⟨fun r hr => ?_, hsort.sublist hsub⟩
    show r.lastAccessedAt ≤ x.lastAccessedAt
    rw [hxt]
    exact Nat.le_of_lt (hmemlt r hr)
  have hcons_ne : (x :: s.filter (fun r => ¬(recPair r = (v, p)))).Pairwise
      (fun a b => a.lastAccessedAt ≠ b.lastAccessedAt) := by
    rw [List.pairwise_cons]
    refine ⟨fun r hr => ?_, hne.sublist hsub⟩
    rw [hxt]
    have := hmemlt r hr
    omega
  refine ⟨?_, ?_, ?_, ?_, ?_⟩
  · exact hcons_sorted.sublist (List.take_sublist _ _)
  · exact hcons_ne.sublist (List.take_sublist _ _)
  · intro r hr
    rcases List.mem_cons.mp ((List.take_sublist _ _).subset hr) with h | h
    · subst h; omega
    · have := hmemlt r h; omega
  · have hnd : ((x :: s.filter (fun r => ¬(recPair r = (v, p)))).map recPair).Nodup := by
      rw [List.map_cons, hxp]
      rw [List.nodup_cons]
      constructor
      · intro habs
        rw [map_recPair_filter] at habs
        have := List.of_mem_filter habs
        simp at this
      · rw [map_recPair_filter]
        exact hnodup.filter _
    exact hnd.sublist ((List.take_sublist _ _).map recPair)
  · exact List.length_take_le 100 _

/-- Appending one element to a list moves its key to the end of the
deduplicated list (keys deduplicate keeping the last occurrence). -/
theorem dedup_append_singleton (x : Str × Str) :
    ∀ ps : List (Str × Str),
      (ps ++ [x]).dedup = (ps.dedup.filter (fun q => ¬(q = x))) ++ [x] := by
  intro ps
  induction ps with
  | nil => simp
  | cons a ps ih =>
    by_cases hax : a = x
    · subst hax
      have hmem : a ∈ ps ++ [a] := by simp
      rw [List.cons_append, List.dedup_cons_of_mem hmem, ih]
      have hsame : (List.dedup (a :: ps)).filter (fun q => ¬(q = a)) =
          (List.dedup ps).filter (fun q => ¬(q = a)) := by
        by_cases haps : a ∈ ps
        · rw [List.dedup_cons_of_mem haps]
        · rw [List.dedup_cons_of_not_mem haps, List.filter_cons]
          simp
      rw [hsame]
    · rw [List.cons_append]
      by_cases hap : a ∈ ps
      · rw [List.dedup_cons_of_mem (by simp [hap]), ih,
          List.dedup_cons_of_mem hap]
      · rw [List.dedup_cons_of_not_mem (by simp [hap, hax]), ih,
          List.dedup_cons_of_not_mem hap, List.filter_cons]
        simp [hax]

/-- Appending one call puts its pair in front of the most-recently-used list
and removes its earlier position. -/
theorem mruPairs_append (cs : List AccessCall) (c : AccessCall) :
    mruPairs (cs ++ [c]) =
      callPair c :: (mruPairs cs).filter (fun q => ¬(q = callPair c)) := by
  unfold mruPairs
  rw [List.map_append]
  rw [show (List.map callPair [c]) = [callPair c] from rfl]
  rw [dedup_append_singleton, List.reverse_append, List.filter_reverse]
  rfl

/-- Filtering one key out of a prefix of a duplicate-free list is a prefix of
filtering it out of the whole list, losing at most one position. -/
theorem filter_take_of_nodup (x : Str × Str) :
    ∀ (M : List (Str × Str)) (k : Nat), M.Nodup →
      ∃ j, k - 1 ≤ j ∧ j ≤ k ∧
        (M.take k).filter (fun q => ¬(q = x)) =
          (M.filter (fun q => ¬(q = x))).take j := by
  intro M
  induction M with
  | nil =>
    intro k _
    exact ⟨k, by omega, Nat.le_refl k, by simp⟩
  | cons m M ih =>
    intro k hnd
    cases k with
    | zero => exact ⟨0, by omega, Nat.le_refl 0, by simp⟩
    | succ k =>
      have hmnotin := (List.nodup_cons.mp hnd).1
      have hnd' := (List.nodup_cons.mp hnd).2
      by_cases hmx : m = x
      · subst hmx
        refine ⟨k, by omega, by omega, ?_⟩
        rw [List.take_succ_cons, List.filter_cons, List.filter_cons,
          if_neg (by simp), if_neg (by simp),
          List.filter_eq_self.mpr (fun a ha => by
            simp only [decide_eq_true_eq]
            intro hh
            exact hmnotin (hh ▸ (List.take_sublist _ _).subset ha)),
          List.filter_eq_self.mpr (fun a ha => by
            simp only [decide_eq_true_eq]
            intro hh
            exact hmnotin (hh ▸ ha))]
      · obtain ⟨j, hj1, hj2, hj3⟩ := ih k hnd'
        refine ⟨j + 1, by omega, by omega, ?_⟩
        rw [List.take_succ_cons, List.filter_cons, List.filter_cons,
          if_pos (by simp [hmx]), if_pos (by simp [hmx]),
          List.take_succ_cons, hj3]

/-- Under distinctness, pre-truncating before filtering out the new key does
not change the truncated final list. -/
theorem take_filter_glue (M : List (Str × Str)) (x : Str × Str)
    (hM : M.Nodup) (k : Nat) :
    (x :: (M.take k).filter (fun q => ¬(q = x))).take k =
      (x :: M.filter (fun q => ¬(q = x))).take k := by
  cases k with
  | zero => simp
  | succ k =>
    obtain ⟨j, hj1, hj2, hj3⟩ := filter_take_of_nodup x M (k + 1) hM
    rw [List.take_succ_cons, List.take_succ_cons, hj3, List.take_take,
      Nat.min_eq_left (by omega)]

/-- Running one more call is one `recordAccess` step on the previous store. -/
theorem runRecency_concat (cs : List AccessCall) (c : AccessCall) :
    runRecency (cs ++ [c]) =
      recordAccess (runRecency cs) c.volumeId c.relativePath c.time := by
  unfold runRecency
  rw [List.foldl_append]
  rfl

/-- Main induction for the recency store: for strictly increasing call
times, the store satisfies the invariant and its keys are exactly the first
100 most-recently-used distinct pairs. -/
theorem runRecency_spec :
    ∀ calls : List AccessCall,
      calls.Pairwise (fun c₁ c₂ => c₁.time < c₂.time) →
      (∀ b, (∀ c ∈ calls, c.time < b) → StoreInv (runRecency calls) b) ∧
      (runRecency calls).map recPair = (mruPairs calls).take 100 := by
  intro calls
  induction calls using List.reverseRecOn with
  | nil =>
    intro _
    constructor
    · intro b _
      exact ⟨List.Pairwise.nil, List.Pairwise.nil, by simp [runRecency],
        by simp [runRecency], by simp [runRecency]⟩
    · simp [runRecency, mruPairs]
  | append_singleton cs c ih =>
    intro hp
    rw [List.pairwise_append] at hp
    obtain ⟨hpcs, _, hlt⟩ := hp
    have hltc : ∀ c' ∈ cs, c'.time < c.time := fun c' h => hlt c' h c (by simp)
    obtain ⟨ihinv, ihpairs⟩ := ih hpcs
    have hinvt : StoreInv (runRecency cs) c.time := ihinv c.time hltc
    constructor
    · intro b hb
      rw [runRecency_concat]
      exact recordAccess_inv _ _ _ _ hinvt b (hb c (by simp))
    · rw [runRecency_concat, recordAccess_pairs _ _ _ _ hinvt, ihpairs,
        mruPairs_append]
      have hnd : (mruPairs cs).Nodup := by
        unfold mruPairs
        exact List.nodup_reverse.mpr (List.nodup_dedup _)
      exact take_filter_glue (mruPairs cs) (callPair c) hnd 100

/-- The recency store never exceeds 100 records, with no hypotheses at all:
every `recordAccess` call ends by truncating to capacity. -/
theorem runRecency_length (calls : List AccessCall) :
    (runRecency calls).length ≤ 100 := by
  rcases List.eq_nil_or_concat calls with rfl | ⟨cs, c, rfl⟩
  · simp [runRecency]
  · rw [List.concat_eq_append, runRecency_concat]
    have hgen : ∀ (s : List AccessRecord) (v p : Str) (t : Nat),
        (recordAccess s v p t).length ≤ 100 := by
      intro s v p t
      unfold recordAccess recencyCapacity
      exact List.length_take_le _ _
    exact hgen _ _ _ _

/-- C6: recency capacity invariant.  After any sequence of `recordAccess`
calls at strictly increasing times, the persisted store holds at most 100
records, and its (volume, path) keys are exactly the (at most) 100
most-recently-accessed distinct pairs in most-recent-first order — eviction
always removes the least-recently-accessed record. -/
theorem recency_bound_C6 :
    ∀ calls : List AccessCall,
      calls.Pairwise (fun c₁ c₂ => c₁.time < c₂.time) →
      (runRecency calls).length ≤ 100 ∧
      (runRecency calls).map recPair = (mruPairs calls).take 100 :=
  fun calls hp => ⟨runRecency_length calls, (runRecency_spec calls hp).2⟩

/-- Witness for C6: three calls, the third re-accessing the first pair,
leave two records with the re-accessed pair first. -/
theorem recency_bound_C6_witness :
    (runRecency [⟨"v".toList, "p1".toList, 1⟩, ⟨"v".toList, "p2".toList, 2⟩,
        ⟨"v".toList, "p1".toList, 3⟩]).length ≤ 100 ∧
      (runRecency [⟨"v".toList, "p1".toList, 1⟩, ⟨"v".toList, "p2".toList, 2⟩,
          ⟨"v".toList, "p1".toList, 3⟩]).map recPair =
        (mruPairs [⟨"v".toList, "p1".toList, 1⟩, ⟨"v".toList, "p2".toList, 2⟩,
          ⟨"v".toList, "p1".toList, 3⟩]).take 100 :=
  recency_bound_C6
    [⟨"v".toList, "p1".toList, 1⟩, ⟨"v".toList, "p2".toList, 2⟩,
      ⟨"v".toList, "p1".toList, 3⟩] (by decide)

end DriveBuddy
